import Mathlib

set_option maxHeartbeats 1000000
set_option maxRecDepth 100000

namespace BPE

/-- Translated from the notebook function replace_pairs (byte-level variant):
scan left to right over the symbol list; when the current symbol equals the
left of the pair, the scanner is not at the last position, and the next symbol
equals the right of the pair, emit idx and advance by two; otherwise emit the
current symbol and advance by one. -/
def replace_pairs (text : List Nat) (pair : Nat × Nat) (idx : Nat) : List Nat :=
  match text with
  | [] => []
  | [a] => [a]
  | a :: b :: rest =>
    if a = pair.1 ∧ b = pair.2 then idx :: replace_pairs rest pair idx
    else a :: replace_pairs (b :: rest) pair idx

/-- Concatenation of a list of lists in order. -/
def concatAll {α : Type} : List (List α) → List α
  | [] => []
  | c :: cs => c ++ concatAll cs

/-- The adjacent pairs of a symbol sequence, in left-to-right scan order.
This is the index loop of get_stats: positions 0 .. len-2, pair
(chars[i], chars[i+1]). -/
def chunkPairs (c : List Nat) : List (Nat × Nat) :=
  match c with
  | a :: b :: rest => (a, b) :: chunkPairs (b :: rest)
  | _ => []

/-- Modelled from the spec: PairCounter counts pairs within chunks only, never
across chunk boundaries, in a canonical left-to-right chunk-order scan. -/
def allPairs (chunks : List (List Nat)) : List (Nat × Nat) :=
  concatAll (chunks.map chunkPairs)

/-- Number of occurrences of x in a list of pairs. -/
def countOcc (x : Nat × Nat) : List (Nat × Nat) → Nat
  | [] => 0
  | y :: ys => (if y = x then 1 else 0) + countOcc x ys

/-- Index of the first occurrence of x (length of the list when absent). -/
def firstIdx (x : Nat × Nat) : List (Nat × Nat) → Nat
  | [] => 0
  | y :: ys => if y = x then 0 else firstIdx x ys + 1

/-- One update of the stats dictionary: stats[k] = stats.get(k, 0) + 1.
The dictionary is modelled as an association list in insertion order, as in
Python (3.7+) dictionaries. -/
def incr (st : List ((Nat × Nat) × Nat)) (k : Nat × Nat) : List ((Nat × Nat) × Nat) :=
  match st with
  | [] => [(k, 1)]
  | (k', v) :: rest => if k' = k then (k', v + 1) :: rest else (k', v) :: incr rest k

/-- The dictionary built by the index loop of get_stats, scanning the adjacent
pairs left to right. -/
def buildStats (l : List (Nat × Nat)) : List ((Nat × Nat) × Nat) :=
  l.foldl incr []

/-- Stable insertion into a list sorted by strictly descending-or-equal counts:
an element inserted later goes after all earlier elements with a count that is
greater than or equal to its own.  This models the stability of the sort used
by the source. -/
def insertDesc (x : (Nat × Nat) × Nat) : List ((Nat × Nat) × Nat) → List ((Nat × Nat) × Nat)
  | [] => [x]
  | y :: ys => if x.2 < y.2 then y :: insertDesc x ys else x :: y :: ys

/-- Stable sort by count, descending; models
sorted(stats.items(), key=item value, reverse=True), which is a stable sort. -/
def sortDesc : List ((Nat × Nat) × Nat) → List ((Nat × Nat) × Nat)
  | [] => []
  | x :: xs => insertDesc x (sortDesc xs)

/-- Translated from the notebook function get_stats: build the pair-count
dictionary and return it sorted by count, descending (stable). -/
def get_stats (chars : List Nat) : List ((Nat × Nat) × Nat) :=
  sortDesc (buildStats (chunkPairs chars))

/-- Modelled from the spec: the multi-chunk PairCounter, get_stats extended to
a list of chunks with counts summed over chunks and pairs never counted across
a chunk boundary. -/
def statsChunks (chunks : List (List Nat)) : List ((Nat × Nat) × Nat) :=
  sortDesc (buildStats (allPairs chunks))

/-- Python max(stats, key=stats.get) over the dictionary in iteration order:
keep the first entry, replacing it only when a later entry has a strictly
greater count, so the first entry attaining the maximum wins. -/
def pythonMax (l : List ((Nat × Nat) × Nat)) : Option ((Nat × Nat) × Nat) :=
  match l with
  | [] => none
  | x :: xs => some (xs.foldl (fun best y => if best.2 < y.2 then y else best) x)

/-- The pair the trainer selects: max over the sorted stats, as in
pair = max(stats, key=stats.get) in the notebook training loop. -/
def selectPair (chunks : List (List Nat)) : Option ((Nat × Nat) × Nat) :=
  pythonMax (statsChunks chunks)

/-- Character categories used by the segmentation pattern: letters, numerals,
whitespace, everything else.  ASCII model of the character classes of the
source pattern. -/
inductive Cat : Type where
  | letter : Cat
  | digit : Cat
  | space : Cat
  | other : Cat
deriving DecidableEq

/-- ASCII character classifier for the segmentation pattern: 65-90 and 97-122
are letters, 48-57 numerals, 9-13 and 32 whitespace, everything else other. -/
def charCat (c : Nat) : Cat :=
  if (65 ≤ c ∧ c ≤ 90) ∨ (97 ≤ c ∧ c ≤ 122) then Cat.letter
  else if 48 ≤ c ∧ c ≤ 57 then Cat.digit
  else if c = 32 ∨ (9 ≤ c ∧ c ≤ 13) then Cat.space
  else Cat.other

/-- Length of the maximal front run of characters of the given category. -/
def runLen (cat : Cat) : List Nat → Nat
  | [] => 0
  | c :: rest => if charCat c = cat then runLen cat rest + 1 else 0

/-- Length matched by the contraction-suffix alternatives of the segmentation
pattern, tried in source order (codes: 39 apostrophe, then s, t, re, ve, m,
ll, d); 0 when none matches. -/
def contractionLen (l : List Nat) : Nat :=
  if l.take 2 = [39, 115] then 2
  else if l.take 2 = [39, 116] then 2
  else if l.take 3 = [39, 114, 101] then 3
  else if l.take 3 = [39, 118, 101] then 3
  else if l.take 2 = [39, 109] then 2
  else if l.take 3 = [39, 108, 108] then 3
  else if l.take 2 = [39, 100] then 2
  else 0

/-- Length matched at the current position by the prioritized alternation of
the segmentation pattern from the notebook: contraction suffixes, then an
optionally space-prefixed letter run, numeral run, other-character run, then a
whitespace run not followed by a non-whitespace character (greedy with
backtracking: all but the last whitespace character when a non-whitespace
character follows), then a whitespace run. -/
def matchLen (l : List Nat) : Nat :=
  match l with
  | [] => 0
  | c :: rest =>
    if contractionLen (c :: rest) ≠ 0 then contractionLen (c :: rest)
    else match charCat c with
    | Cat.letter => runLen Cat.letter (c :: rest)
    | Cat.digit => runLen Cat.digit (c :: rest)
    | Cat.other => runLen Cat.other (c :: rest)
    | Cat.space =>
      if c = 32 ∧ runLen Cat.letter rest ≠ 0 then 1 + runLen Cat.letter rest
      else if c = 32 ∧ runLen Cat.digit rest ≠ 0 then 1 + runLen Cat.digit rest
      else if c = 32 ∧ runLen Cat.other rest ≠ 0 then 1 + runLen Cat.other rest
      else
        let w := runLen Cat.space (c :: rest)
        if w = (c :: rest).length then w
        else if 2 ≤ w then w - 1
        else 1

/-- Segmentation loop with fuel (one unit per match, each consuming at least
one character): repeatedly match at the current position and continue after
the match; a position where nothing matches is skipped, as findall does. -/
def segmentAux : Nat → List Nat → List (List Nat)
  | 0, _ => []
  | _ + 1, [] => []
  | fuel + 1, c :: rest =>
    let n := matchLen (c :: rest)
    if n = 0 then segmentAux fuel rest
    else (c :: rest).take n :: segmentAux fuel ((c :: rest).drop n)

/-- The Segmenter: findall of the category pattern over the input. -/
def segment (l : List Nat) : List (List Nat) :=
  segmentAux l.length l

/-- All characters of the list belong to the given category. -/
def catRunB (cat : Cat) : List Nat → Bool
  | [] => true
  | c :: rest => if charCat c = cat then catRunB cat rest else false

/-- The chunk is one of the contraction suffixes. -/
def isContrB (ch : List Nat) : Bool :=
  decide (ch = [39, 115]) || decide (ch = [39, 116]) || decide (ch = [39, 114, 101]) ||
  decide (ch = [39, 118, 101]) || decide (ch = [39, 109]) || decide (ch = [39, 108, 108]) ||
  decide (ch = [39, 100])

/-- The chunk is a nonempty run of the given category, optionally preceded by
one space character (code 32). -/
def isRunB (cat : Cat) (ch : List Nat) : Bool :=
  match ch with
  | [] => false
  | c :: rest =>
    (decide (charCat c = cat) && catRunB cat rest) ||
    (decide (c = 32) && decide (rest ≠ []) && catRunB cat rest)

/-- The chunk is a nonempty whitespace run. -/
def isWsB (ch : List Nat) : Bool :=
  match ch with
  | [] => false
  | c :: rest => decide (charCat c = Cat.space) && catRunB Cat.space rest

/-- Number of the five chunk categories the chunk belongs to. -/
def catCount (ch : List Nat) : Nat :=
  (if isContrB ch then 1 else 0) + (if isRunB Cat.letter ch then 1 else 0) +
  (if isRunB Cat.digit ch then 1 else 0) + (if isRunB Cat.other ch then 1 else 0) +
  (if isWsB ch then 1 else 0)

/-- Training state: the evolving chunks, the Symbol-to-expansion vocabulary as
an association list in insertion order, and the ordered merge list. -/
structure BPEState : Type where
  chunks : List (List Nat)
  vocab : List (Nat × List Nat)
  merges : List ((Nat × Nat) × Nat)
deriving DecidableEq

/-- Dictionary lookup in an association list. -/
def vlookup (v : List (Nat × List Nat)) (k : Nat) : Option (List Nat) :=
  match v with
  | [] => none
  | (k', e) :: rest => if k' = k then some e else vlookup rest k

/-- Expansion lookup with empty default (well-formed states never hit the
default). -/
def lookupExp (v : List (Nat × List Nat)) (k : Nat) : List Nat :=
  (vlookup v k).getD []

/-- Total number of symbols across all chunks. -/
def totalSyms (chunks : List (List Nat)) : Nat :=
  (chunks.map List.length).sum

/-- Modelled from the spec: one iteration of the MergeTrainer loop.  Compute
pair counts over all chunks; if no pair has count greater than 1, or the
vocabulary has reached the target size, stop; otherwise select the
highest-count pair (ties resolved by the sorted-dictionary max of the source),
allocate the next Symbol ID (256 plus the number of merges so far), rewrite
every chunk with replace_pairs, extend the vocabulary with the concatenated
expansion, and record the merge. -/
def trainStep (target : Nat) (s : BPEState) : Option BPEState :=
  let stats := statsChunks s.chunks
  if stats.all (fun kv => kv.2 ≤ 1) then none
  else if target ≤ s.vocab.length then none
  else match pythonMax stats with
    | none => none
    | some kv =>
      let p := kv.1
      let idx := 256 + s.merges.length
      some { chunks := s.chunks.map (fun c => replace_pairs c p idx),
             vocab := s.vocab ++ [(idx, lookupExp s.vocab p.1 ++ lookupExp s.vocab p.2)],
             merges := s.merges ++ [(p, idx)] }

/-- The training loop, with fuel (each unit is one step; the fuel chosen by
the entry points below always suffices because every merge strictly decreases
the total symbol count). -/
def trainLoop (target : Nat) : Nat → BPEState → BPEState
  | 0, s => s
  | fuel + 1, s =>
    match trainStep target s with
    | none => s
    | some s' => trainLoop target fuel s'

/-- Training on given initial chunks and initial vocabulary. -/
def trainOn (chunks : List (List Nat)) (initVocab : List (Nat × List Nat)) (target : Nat) : BPEState :=
  trainLoop target (totalSyms chunks + 1) ⟨chunks, initVocab, []⟩

/-- The byte vocabulary 0 .. n-1, each byte expanding to itself. -/
def byteVocabAux : Nat → List (Nat × List Nat)
  | 0 => []
  | n + 1 => byteVocabAux n ++ [(n, [n])]

/-- The reserved byte range of the vocabulary: IDs 0-255. -/
def byteVocab : List (Nat × List Nat) :=
  byteVocabAux 256

/-- Modelled from the spec: the training entry point; segment the corpus and
run the MergeTrainer from the byte vocabulary. -/
def train (corpus : List Nat) (target : Nat) : BPEState :=
  trainOn (segment corpus) byteVocab target

/-- The pair occurs as adjacent symbols somewhere in the chunk. -/
def pairInChunk (p : Nat × Nat) : List Nat → Bool
  | a :: b :: rest => (decide (a = p.1) && decide (b = p.2)) || pairInChunk p (b :: rest)
  | _ => false

/-- Modelled from the spec: the lowest-rank merge rule whose pair is currently
present in the chunk (the merge list is ordered by rank). -/
def findRule (merges : List ((Nat × Nat) × Nat)) (chunk : List Nat) : Option ((Nat × Nat) × Nat) :=
  merges.find? (fun r => pairInChunk r.1 chunk)

/-- Modelled from the spec: the encode loop on one chunk, with fuel; apply the
lowest-rank present rule and repeat until no present pair has a rule. -/
def encodeChunk (merges : List ((Nat × Nat) × Nat)) : Nat → List Nat → List Nat
  | 0, c => c
  | fuel + 1, c =>
    match findRule merges c with
    | none => c
    | some r => encodeChunk merges fuel (replace_pairs c r.1 r.2)

/-- Encoding of one chunk (the fuel suffices: every applied rule strictly
shortens the chunk). -/
def encodeChunkF (merges : List ((Nat × Nat) × Nat)) (c : List Nat) : List Nat :=
  encodeChunk merges c.length c

/-- Modelled from the spec: the Encoder; segment the text, encode each chunk,
and concatenate the chunk token sequences in original order. -/
def encode (text : List Nat) (merges : List ((Nat × Nat) × Nat)) : List Nat :=
  concatAll ((segment text).map (encodeChunkF merges))

/-- Modelled from the spec: the Decoder; replace each Symbol with its stored
expansion and concatenate in order; none when a token ID is absent from the
vocabulary. -/
def decode (tokens : List Nat) (vocab : List (Nat × List Nat)) : Option (List Nat) :=
  match tokens with
  | [] => some []
  | t :: ts =>
    match vlookup vocab t, decode ts vocab with
    | some e, some rest => some (e ++ rest)
    | _, _ => none

/-- The character codes of the text "my dog. your dog." from the notebook. -/
def myDogText : List Nat :=
  [109, 121, 32, 100, 111, 103, 46, 32, 121, 111, 117, 114, 32, 100, 111, 103, 46]

/-- The single character-level chunk of the text "ababcabcd" from the
notebook. -/
def ababChunk : List Nat :=
  [97, 98, 97, 98, 99, 97, 98, 99, 100]

/-- The character-level initial vocabulary for "ababcabcd": its four distinct
characters a, b, c, d. -/
def ababVocab : List (Nat × List Nat) :=
  [(97, [97]), (98, [98]), (99, [99]), (100, [100])]

/-- A merge rule is well formed for a vocabulary: both sides of its pair have
stored expansions and the new symbol expands to their concatenation. -/
def RuleOK (v : List (Nat × List Nat)) (r : (Nat × Nat) × Nat) : Prop :=
  ∃ el er, vlookup v r.1.1 = some el ∧ vlookup v r.1.2 = some er ∧
    vlookup v r.2 = some (el ++ er)

/-- m is the first entry of l attaining the maximum count. -/
def IsFirstMax (m : (Nat × Nat) × Nat) (l : List ((Nat × Nat) × Nat)) : Prop :=
  ∃ l1 l2, l = l1 ++ m :: l2 ∧ (∀ y ∈ l1, y.2 < m.2) ∧ (∀ y ∈ l, y.2 ≤ m.2)

/-- Counts are in weakly descending order. -/
def SortedD (l : List ((Nat × Nat) × Nat)) : Prop :=
  List.Pairwise (fun a b => b.2 ≤ a.2) l

/-- The stats dictionary st faithfully represents the pair list l: every entry
carries the occurrence count of its key, the keys are exactly the pairs of l
with no duplicates, and they appear ordered by first occurrence in l. -/
def StatsOK (l : List (Nat × Nat)) (st : List ((Nat × Nat) × Nat)) : Prop :=
  (∀ kv ∈ st, kv.2 = countOcc kv.1 l) ∧
  (∀ k, k ∈ l ↔ k ∈ st.map Prod.fst) ∧
  (st.map Prod.fst).Nodup ∧
  List.Pairwise (fun a b => firstIdx a l < firstIdx b l) (st.map Prod.fst)

/-- Invariants of a training state relative to the original chunks: the
vocabulary keys are exactly 0 .. len-1, the vocabulary has 256 byte entries
plus one entry per merge, bytes expand to themselves, every recorded merge is
well formed with a symbol of at least 256 whose expansion sits inside some
original chunk, chunk symbols are in vocabulary range, and every evolved chunk
still decodes to its original chunk. -/
def GoodState (orig : List (List Nat)) (s : BPEState) : Prop :=
  s.vocab.map Prod.fst = List.range s.vocab.length ∧
  s.vocab.length = 256 + s.merges.length ∧
  (∀ b, b < 256 → vlookup s.vocab b = some [b]) ∧
  (∀ r ∈ s.merges, 256 ≤ r.2 ∧ RuleOK s.vocab r ∧
    ∃ o ∈ orig, ∃ e, vlookup s.vocab r.2 = some e ∧ e <:+: o) ∧
  (∀ c ∈ s.chunks, ∀ sym ∈ c, sym < s.vocab.length) ∧
  List.Forall₂ (fun c o => decode c s.vocab = some o) s.chunks orig

/-! Lemmas about replace_pairs. -/

theorem rp_length_le (text : List Nat) (p : Nat × Nat) (idx : Nat) :
    (replace_pairs text p idx).length ≤ text.length := by
  induction text, p, idx using replace_pairs.induct with
  | case1 p idx => simp [replace_pairs]
  | case2 p idx a => simp [replace_pairs]
  | case3 p idx a b rest h ih =>
    simp only [replace_pairs, if_pos h, List.length_cons]
    omega
  | case4 p idx a b rest h ih =>
    simp only [replace_pairs, if_neg h, List.length_cons]
    simp only [List.length_cons] at ih
    omega

theorem rp_length_lt (text : List Nat) (p : Nat × Nat) (idx : Nat)
    (h : pairInChunk p text = true) :
    (replace_pairs text p idx).length < text.length := by
  induction text, p, idx using replace_pairs.induct with
  | case1 p idx => simp [pairInChunk] at h
  | case2 p idx a => simp [pairInChunk] at h
  | case3 p idx a b rest hc ih =>
    simp only [replace_pairs, if_pos hc, List.length_cons]
    have := rp_length_le rest p idx
    omega
  | case4 p idx a b rest hc ih =>
    simp only [replace_pairs, if_neg hc, List.length_cons]
    simp only [pairInChunk, Bool.or_eq_true, Bool.and_eq_true, decide_eq_true_eq] at h
    rcases h with h | h
    · exact absurd ⟨h.1, h.2⟩ hc
    · have := ih h
      simp only [List.length_cons] at this ⊢
      omega

theorem rp_mem (text : List Nat) (p : Nat × Nat) (idx : Nat) (s : Nat)
    (h : s ∈ replace_pairs text p idx) : s ∈ text ∨ s = idx := by
  induction text, p, idx using replace_pairs.induct with
  | case1 p idx => simp [replace_pairs] at h
  | case2 p idx a =>
    simp only [replace_pairs, List.mem_singleton] at h
    exact Or.inl (by simp [h])
  | case3 p idx a b rest hc ih =>
    simp only [replace_pairs, if_pos hc, List.mem_cons] at h
    rcases h with h | h
    · exact Or.inr h
    · rcases ih h with h' | h'
      · exact Or.inl (by simp [h'])
      · exact Or.inr h'
  | case4 p idx a b rest hc ih =>
    simp only [replace_pairs, if_neg hc, List.mem_cons] at h
    rcases h with h | h
    · exact Or.inl (by simp [h])
    · rcases ih h with h' | h'
      · simp only [List.mem_cons] at h'
        rcases h' with h' | h'
        · exact Or.inl (by simp [h'])
        · exact Or.inl (by simp [h'])
      · exact Or.inr h'

theorem rp_id_of_not_mem (text : List Nat) (p : Nat × Nat) (idx : Nat)
    (h : p.2 ∉ text) : replace_pairs text p idx = text := by
  induction text, p, idx using replace_pairs.induct with
  | case1 p idx => rfl
  | case2 p idx a => rfl
  | case3 p idx a b rest hc ih =>
    exact absurd (by simp [hc.2]) h
  | case4 p idx a b rest hc ih =>
    simp only [replace_pairs, if_neg hc]
    rw [ih (fun hm => h (List.mem_cons_of_mem a hm))]

theorem rp_cons_cons_pos (a b : Nat) (rest : List Nat) (p : Nat × Nat) (idx : Nat)
    (h1 : a = p.1) (h2 : b = p.2) :
    replace_pairs (a :: b :: rest) p idx = idx :: replace_pairs rest p idx := by
  simp [replace_pairs, h1, h2]

theorem rp_replicate_even (n a idx : Nat) :
    replace_pairs (List.replicate (2 * n) a) (a, a) idx = List.replicate n idx := by
  induction n with
  | zero => rfl
  | succ m ih =>
    have h2 : 2 * (m + 1) = (2 * m) + 1 + 1 := by omega
    rw [h2, List.replicate_succ, List.replicate_succ,
      rp_cons_cons_pos a a _ (a, a) idx rfl rfl, ih, List.replicate_succ]

theorem rp_replicate_odd (n a idx : Nat) :
    replace_pairs (List.replicate (2 * n + 1) a) (a, a) idx =
      List.replicate n idx ++ [a] := by
  induction n with
  | zero => rfl
  | succ m ih =>
    have h2 : 2 * (m + 1) + 1 = (2 * m + 1) + 1 + 1 := by omega
    rw [h2, List.replicate_succ, List.replicate_succ,
      rp_cons_cons_pos a a _ (a, a) idx rfl rfl, ih, List.replicate_succ,
      List.cons_append]

/-! Lemmas about vlookup and decode. -/

theorem vlookup_append_some (v w : List (Nat × List Nat)) (k : Nat) (e : List Nat)
    (h : vlookup v k = some e) : vlookup (v ++ w) k = some e := by
  induction v with
  | nil => simp [vlookup] at h
  | cons kv rest ih =>
    obtain ⟨k', e'⟩ := kv
    simp only [vlookup, List.cons_append] at h ⊢
    by_cases hk : k' = k
    · simpa [hk] using h
    · rw [if_neg hk] at h ⊢
      exact ih h

theorem vlookup_append_fresh (v : List (Nat × List Nat)) (k : Nat) (e : List Nat)
    (h : k ∉ v.map Prod.fst) : vlookup (v ++ [(k, e)]) k = some e := by
  induction v with
  | nil => simp [vlookup]
  | cons kv rest ih =>
    obtain ⟨k', e'⟩ := kv
    simp only [List.map_cons, List.mem_cons] at h
    push_neg at h
    have step : vlookup ((k', e') :: rest ++ [(k, e)]) k =
        vlookup (rest ++ [(k, e)]) k := by
      simp [vlookup, Ne.symm h.1]
    rw [step]
    exact ih h.2

theorem vlookup_some_of_mem_keys (v : List (Nat × List Nat)) (k : Nat)
    (h : k ∈ v.map Prod.fst) : ∃ e, vlookup v k = some e := by
  induction v with
  | nil => simp at h
  | cons kv rest ih =>
    obtain ⟨k', e'⟩ := kv
    simp only [List.map_cons, List.mem_cons] at h
    by_cases hk : k' = k
    · exact ⟨e', by simp [vlookup, hk]⟩
    · rcases h with h | h
      · exact absurd h.symm hk
      · obtain ⟨e, he⟩ := ih h
        exact ⟨e, by simp [vlookup, hk, he]⟩

theorem byteVocabAux_keys (n : Nat) :
    (byteVocabAux n).map Prod.fst = List.range n := by
  induction n with
  | zero => rfl
  | succ m ih =>
    simp only [byteVocabAux, List.map_append, List.map_cons, List.map_nil, ih,
      List.range_succ]

theorem byteVocabAux_length (n : Nat) : (byteVocabAux n).length = n := by
  induction n with
  | zero => rfl
  | succ m ih => simp [byteVocabAux, ih]

theorem byteVocabAux_lookup (n k : Nat) (h : k < n) :
    vlookup (byteVocabAux n) k = some [k] := by
  induction n with
  | zero => omega
  | succ m ih =>
    by_cases hk : k < m
    · exact vlookup_append_some _ _ _ _ (ih hk)
    · have hk' : k = m := by omega
      subst hk'
      exact vlookup_append_fresh _ _ _ (by rw [byteVocabAux_keys]; simp)

theorem decode_cons (t : Nat) (ts : List Nat) (v : List (Nat × List Nat)) :
    decode (t :: ts) v =
      match vlookup v t, decode ts v with
      | some e, some rest => some (e ++ rest)
      | _, _ => none := rfl

theorem decode_append (xs ys : List Nat) (v : List (Nat × List Nat))
    (a b : List Nat) (ha : decode xs v = some a) (hb : decode ys v = some b) :
    decode (xs ++ ys) v = some (a ++ b) := by
  induction xs generalizing a with
  | nil =>
    simp only [decode, Option.some_inj] at ha
    subst ha
    simpa using hb
  | cons t ts ih =>
    rw [decode_cons] at ha
    cases he : vlookup v t with
    | none => rw [he] at ha; simp at ha
    | some e =>
      rw [he] at ha
      cases hrest : decode ts v with
      | none => rw [hrest] at ha; simp at ha
      | some r =>
        rw [hrest] at ha
        simp only [Option.some_inj] at ha
        rw [List.cons_append, decode_cons, he, ih r hrest]
        simp [← ha, List.append_assoc]

theorem decode_append_inv (xs ys : List Nat) (v : List (Nat × List Nat))
    (b : List Nat) (h : decode (xs ++ ys) v = some b) :
    ∃ b1 b2, decode xs v = some b1 ∧ decode ys v = some b2 ∧ b = b1 ++ b2 := by
  induction xs generalizing b with
  | nil =>
    exact ⟨[], b, rfl, by simpa using h, rfl⟩
  | cons t ts ih =>
    rw [List.cons_append, decode_cons] at h
    cases he : vlookup v t with
    | none => rw [he] at h; simp at h
    | some e =>
      rw [he] at h
      cases hrest : decode (ts ++ ys) v with
      | none => rw [hrest] at h; simp at h
      | some r =>
        rw [hrest] at h
        simp only [Option.some_inj] at h
        obtain ⟨b1, b2, h1, h2, h3⟩ := ih r hrest
        refine ⟨e ++ b1, b2, ?_, h2, by simp [← h, h3, List.append_assoc]⟩
        rw [decode_cons, he, h1]

theorem decode_mono (c : List Nat) (v w : List (Nat × List Nat)) (b : List Nat)
    (h : decode c v = some b) : decode c (v ++ w) = some b := by
  induction c generalizing b with
  | nil => simpa [decode] using h
  | cons t ts ih =>
    simp only [decode] at h ⊢
    cases he : vlookup v t with
    | none => rw [he] at h; simp at h
    | some e =>
      rw [he] at h
      cases hrest : decode ts v with
      | none => rw [hrest] at h; simp at h
      | some r =>
        rw [hrest] at h
        rw [vlookup_append_some v w t e he, ih r hrest]
        exact h

theorem decode_bytes (c : List Nat) (v : List (Nat × List Nat))
    (hb : ∀ b ∈ c, b < 256) (hv : ∀ b, b < 256 → vlookup v b = some [b]) :
    decode c v = some c := by
  induction c with
  | nil => rfl
  | cons t ts ih =>
    rw [decode_cons, hv t (hb t (by simp)), ih (fun b hm => hb b (by simp [hm]))]
    rfl

theorem rp_decode (c : List Nat) (p : Nat × Nat) (idx : Nat)
    (v : List (Nat × List Nat)) (hr : RuleOK v (p, idx)) (b : List Nat)
    (h : decode c v = some b) : decode (replace_pairs c p idx) v = some b := by
  induction c, p, idx using replace_pairs.induct generalizing b with
  | case1 p idx => simpa [replace_pairs] using h
  | case2 p idx a => simpa [replace_pairs] using h
  | case3 p idx a b' rest hc ih =>
    obtain ⟨hc1, hc2⟩ := hc
    subst hc1; subst hc2
    obtain ⟨el, er, hel, her, hidx⟩ := hr
    have hel' : vlookup v p.1 = some el := hel
    have her' : vlookup v p.2 = some er := her
    have hidx' : vlookup v idx = some (el ++ er) := hidx
    rw [decode_cons, hel'] at h
    cases h2 : decode (p.2 :: rest) v with
    | none => rw [h2] at h; simp at h
    | some r2 =>
      rw [h2] at h
      rw [decode_cons, her'] at h2
      cases h3 : decode rest v with
      | none => rw [h3] at h2; simp at h2
      | some r3 =>
        rw [h3] at h2
        simp only [Option.some_inj] at h h2
        rw [rp_cons_cons_pos p.1 p.2 rest p idx rfl rfl, decode_cons, hidx',
          ih ⟨el, er, hel, her, hidx⟩ r3 h3]
        simp [← h, ← h2, List.append_assoc]
  | case4 p idx a b' rest hc ih =>
    rw [decode_cons] at h
    cases he : vlookup v a with
    | none => rw [he] at h; simp at h
    | some e =>
      rw [he] at h
      cases h2 : decode (b' :: rest) v with
      | none => rw [h2] at h; simp at h
      | some r2 =>
        rw [h2] at h
        have step : replace_pairs (a :: b' :: rest) p idx =
            a :: replace_pairs (b' :: rest) p idx := by
          simp only [replace_pairs, if_neg hc]
        rw [step, decode_cons, he, ih hr r2 h2]
        exact h

/-! Lemmas about the Segmenter. -/

theorem runLen_cons_pos (cat : Cat) (c : Nat) (rest : List Nat)
    (h : charCat c = cat) : runLen cat (c :: rest) = runLen cat rest + 1 := by
  simp [runLen, h]

theorem runLen_le_length (cat : Cat) (l : List Nat) : runLen cat l ≤ l.length := by
  induction l with
  | nil => simp [runLen]
  | cons c rest ih =>
    simp only [runLen, List.length_cons]
    split
    · omega
    · omega

theorem catRunB_take_le (cat : Cat) (l : List Nat) (k : Nat)
    (h : k ≤ runLen cat l) : catRunB cat (l.take k) = true := by
  induction l generalizing k with
  | nil => simp [List.take_nil, catRunB]
  | cons c rest ih =>
    cases k with
    | zero => simp [catRunB]
    | succ k' =>
      simp only [runLen] at h
      by_cases hc : charCat c = cat
      · rw [if_pos hc] at h
        simp only [List.take_succ_cons, catRunB, if_pos hc]
        exact ih k' (by omega)
      · rw [if_neg hc] at h
        omega

theorem catRunB_take_runLen (cat : Cat) (l : List Nat) :
    catRunB cat (l.take (runLen cat l)) = true :=
  catRunB_take_le cat l (runLen cat l) le_rfl

theorem catRunB_head (cat : Cat) (c : Nat) (t : List Nat)
    (h : catRunB cat (c :: t) = true) : charCat c = cat := by
  simp only [catRunB] at h
  by_cases hc : charCat c = cat
  · exact hc
  · rw [if_neg hc] at h
    exact absurd h (by simp)

theorem isContrB_shape (ch : List Nat) (h : isContrB ch = true) :
    ∃ c2 t2, ch = 39 :: c2 :: t2 ∧ charCat c2 = Cat.letter := by
  simp only [isContrB, Bool.or_eq_true, decide_eq_true_eq] at h
  rcases h with ((((((h | h) | h) | h) | h) | h) | h) <;>
    subst h <;> exact ⟨_, _, rfl, by decide⟩

theorem validRun (cat : Cat) (hcat : cat ≠ Cat.space) (c : Nat) (t : List Nat)
    (hc : charCat c = cat) (ht : catRunB cat t = true) : catCount (c :: t) = 1 := by
  have hcontr : isContrB (c :: t) = false := by
    by_cases h : isContrB (c :: t) = true
    · obtain ⟨c2, t2, heq, hc2⟩ := isContrB_shape _ h
      have h39 : c = 39 := by
        injection heq with h1 _
      subst h39
      have : charCat 39 = Cat.other := by decide
      rw [this] at hc
      subst hc
      have ht2 : t = c2 :: t2 := by injection heq
      subst ht2
      have := catRunB_head Cat.other c2 t2 ht
      rw [hc2] at this
      exact absurd this (by decide)
    · simpa using h
  have hc32 : c ≠ 32 := by
    intro hh
    subst hh
    have : charCat 32 = Cat.space := by decide
    rw [this] at hc
    exact hcat hc.symm
  have hrun : isRunB cat (c :: t) = true := by
    simp [isRunB, hc, ht]
  have hother : ∀ cat', cat' ≠ cat → isRunB cat' (c :: t) = false := by
    intro cat' hne
    simp only [isRunB, Bool.or_eq_false_iff, Bool.and_eq_false_iff]
    constructor
    · left
      simp only [decide_eq_false_iff_not]
      rw [hc]
      exact fun hh => hne hh.symm
    · left
      left
      simp [hc32]
  have hws : isWsB (c :: t) = false := by
    simp only [isWsB, Bool.and_eq_false_iff]
    left
    simp only [decide_eq_false_iff_not]
    rw [hc]
    exact fun hh => hcat (by rw [hh])
  cases cat with
  | letter =>
    simp [catCount, hcontr, hrun, hother Cat.digit (by decide),
      hother Cat.other (by decide), hws]
  | digit =>
    simp [catCount, hcontr, hrun, hother Cat.letter (by decide),
      hother Cat.other (by decide), hws]
  | space => exact absurd rfl hcat
  | other =>
    simp [catCount, hcontr, hrun, hother Cat.letter (by decide),
      hother Cat.digit (by decide), hws]

theorem validSpaceRun (cat : Cat) (hcat : cat ≠ Cat.space) (t : List Nat)
    (ht : catRunB cat t = true) (hne : t ≠ []) : catCount (32 :: t) = 1 := by
  obtain ⟨c2, t2, rfl⟩ : ∃ c2 t2, t = c2 :: t2 := by
    cases t with
    | nil => exact absurd rfl hne
    | cons a b => exact ⟨a, b, rfl⟩
  have hc2 : charCat c2 = cat := catRunB_head cat c2 t2 ht
  have hcontr : isContrB (32 :: c2 :: t2) = false := by
    by_cases h : isContrB (32 :: c2 :: t2) = true
    · obtain ⟨c3, t3, heq, _⟩ := isContrB_shape _ h
      exact absurd heq (by simp)
    · simpa using h
  have hrun : isRunB cat (32 :: c2 :: t2) = true := by
    simp [isRunB, ht]
  have hother : ∀ cat', cat' ≠ cat → cat' ≠ Cat.space →
      isRunB cat' (32 :: c2 :: t2) = false := by
    intro cat' hne' hns
    have h32 : charCat 32 = Cat.space := by decide
    simp only [isRunB, Bool.or_eq_false_iff, Bool.and_eq_false_iff]
    constructor
    · left
      simp only [decide_eq_false_iff_not]
      rw [h32]
      exact fun hh => hns hh.symm
    · right
      simp only [catRunB, hc2]
      rw [if_neg (fun hh : cat = cat' => hne' hh.symm)]
  have hws : isWsB (32 :: c2 :: t2) = false := by
    simp only [isWsB, Bool.and_eq_false_iff]
    right
    simp only [catRunB]
    rw [if_neg (fun hh : charCat c2 = Cat.space => hcat (by rw [← hh, hc2]))]
  cases cat with
  | letter =>
    simp [catCount, hcontr, hrun, hother Cat.digit (by decide) (by decide),
      hother Cat.other (by decide) (by decide), hws]
  | digit =>
    simp [catCount, hcontr, hrun, hother Cat.letter (by decide) (by decide),
      hother Cat.other (by decide) (by decide), hws]
  | space => exact absurd rfl hcat
  | other =>
    simp [catCount, hcontr, hrun, hother Cat.letter (by decide) (by decide),
      hother Cat.digit (by decide) (by decide), hws]

theorem validWs (c : Nat) (t : List Nat) (hc : charCat c = Cat.space)
    (ht : catRunB Cat.space t = true) : catCount (c :: t) = 1 := by
  have hcontr : isContrB (c :: t) = false := by
    by_cases h : isContrB (c :: t) = true
    · obtain ⟨c2, t2, heq, _⟩ := isContrB_shape _ h
      have h39 : c = 39 := by injection heq with h1 _
      subst h39
      have : charCat 39 = Cat.other := by decide
      rw [this] at hc
      exact absurd hc (by decide)
    · simpa using h
  have hws : isWsB (c :: t) = true := by
    simp [isWsB, hc, ht]
  have hother : ∀ cat', cat' ≠ Cat.space → isRunB cat' (c :: t) = false := by
    intro cat' hns
    simp only [isRunB, Bool.or_eq_false_iff, Bool.and_eq_false_iff]
    constructor
    · left
      simp only [decide_eq_false_iff_not]
      rw [hc]
      exact fun hh => hns hh.symm
    · cases t with
      | nil =>
        left
        right
        simp
      | cons c2 t2 =>
        right
        have hc2 : charCat c2 = Cat.space := catRunB_head Cat.space c2 t2 ht
        simp only [catRunB]
        rw [if_neg (fun hh : charCat c2 = cat' => hns (by rw [← hh, hc2]))]
  simp [catCount, hcontr, hws, hother Cat.letter (by decide),
    hother Cat.digit (by decide), hother Cat.other (by decide)]

theorem contraction_take_valid (l : List Nat) :
    contractionLen l = 0 ∨ catCount (l.take (contractionLen l)) = 1 := by
  unfold contractionLen
  repeat' split
  any_goals (left; rfl)
  all_goals (rename_i h; right; rw [h]; decide)

theorem matchLen_pos (c : Nat) (rest : List Nat) : matchLen (c :: rest) ≠ 0 := by
  simp only [matchLen]
  by_cases hcl : contractionLen (c :: rest) ≠ 0
  · rw [if_pos hcl]; exact hcl
  · rw [if_neg hcl]
    split
    · rename_i hcc
      rw [runLen_cons_pos _ _ _ hcc]; omega
    · rename_i hcc
      rw [runLen_cons_pos _ _ _ hcc]; omega
    · rename_i hcc
      rw [runLen_cons_pos _ _ _ hcc]; omega
    · rename_i hcc
      by_cases h1 : c = 32 ∧ runLen Cat.letter rest ≠ 0
      · rw [if_pos h1]; omega
      · rw [if_neg h1]
        by_cases h2 : c = 32 ∧ runLen Cat.digit rest ≠ 0
        · rw [if_pos h2]; omega
        · rw [if_neg h2]
          by_cases h3 : c = 32 ∧ runLen Cat.other rest ≠ 0
          · rw [if_pos h3]; omega
          · rw [if_neg h3]
            simp only [runLen_cons_pos _ _ _ hcc]
            split
            · omega
            · split
              · omega
              · omega

theorem matchLen_take_valid (c : Nat) (rest : List Nat) :
    catCount ((c :: rest).take (matchLen (c :: rest))) = 1 := by
  simp only [matchLen]
  by_cases hcl : contractionLen (c :: rest) ≠ 0
  · rw [if_pos hcl]
    rcases contraction_take_valid (c :: rest) with h | h
    · exact absurd h hcl
    · exact h
  · rw [if_neg hcl]
    split
    · rename_i hcc
      rw [runLen_cons_pos _ _ _ hcc, List.take_succ_cons]
      exact validRun Cat.letter (by decide) c _ hcc (catRunB_take_runLen _ _)
    · rename_i hcc
      rw [runLen_cons_pos _ _ _ hcc, List.take_succ_cons]
      exact validRun Cat.digit (by decide) c _ hcc (catRunB_take_runLen _ _)
    · rename_i hcc
      rw [runLen_cons_pos _ _ _ hcc, List.take_succ_cons]
      exact validRun Cat.other (by decide) c _ hcc (catRunB_take_runLen _ _)
    · rename_i hcc
      by_cases h1 : c = 32 ∧ runLen Cat.letter rest ≠ 0
      · rw [if_pos h1]
        have : 1 + runLen Cat.letter rest = runLen Cat.letter rest + 1 := by omega
        rw [this, List.take_succ_cons, h1.1]
        refine validSpaceRun Cat.letter (by decide) _ (catRunB_take_runLen _ _) ?_
        have hle := runLen_le_length Cat.letter rest
        have hpos := h1.2
        intro hemp
        have := congrArg List.length hemp
        simp only [List.length_take, List.length_nil] at this
        omega
      · rw [if_neg h1]
        by_cases h2 : c = 32 ∧ runLen Cat.digit rest ≠ 0
        · rw [if_pos h2]
          have : 1 + runLen Cat.digit rest = runLen Cat.digit rest + 1 := by omega
          rw [this, List.take_succ_cons, h2.1]
          refine validSpaceRun Cat.digit (by decide) _ (catRunB_take_runLen _ _) ?_
          have hle := runLen_le_length Cat.digit rest
          have hpos := h2.2
          intro hemp
          have := congrArg List.length hemp
          simp only [List.length_take, List.length_nil] at this
          omega
        · rw [if_neg h2]
          by_cases h3 : c = 32 ∧ runLen Cat.other rest ≠ 0
          · rw [if_pos h3]
            have : 1 + runLen Cat.other rest = runLen Cat.other rest + 1 := by omega
            rw [this, List.take_succ_cons, h3.1]
            refine validSpaceRun Cat.other (by decide) _ (catRunB_take_runLen _ _) ?_
            have hle := runLen_le_length Cat.other rest
            have hpos := h3.2
            intro hemp
            have := congrArg List.length hemp
            simp only [List.length_take, List.length_nil] at this
            omega
          · rw [if_neg h3]
            simp only [runLen_cons_pos _ _ _ hcc]
            split
            · rw [List.take_succ_cons]
              exact validWs c _ hcc (catRunB_take_runLen _ _)
            · split
              · rename_i hw2
                have : runLen Cat.space rest + 1 - 1 = runLen Cat.space rest := by omega
                rw [this]
                cases hrl : runLen Cat.space rest with
                | zero => simp only [List.take_zero]; omega
                | succ k =>
                  rw [List.take_succ_cons]
                  refine validWs c _ hcc ?_
                  exact catRunB_take_le Cat.space rest k (by omega)
              · rw [List.take_succ_cons, List.take_zero]
                exact validWs c [] hcc rfl

theorem segmentAux_flatten (fuel : Nat) (l : List Nat) (h : l.length ≤ fuel) :
    concatAll (segmentAux fuel l) = l := by
  induction fuel generalizing l with
  | zero =>
    cases l with
    | nil => rfl
    | cons c rest => simp at h
  | succ f ih =>
    cases l with
    | nil => rfl
    | cons c rest =>
      simp only [segmentAux]
      rw [if_neg (matchLen_pos c rest)]
      simp only [concatAll]
      rw [ih ((c :: rest).drop (matchLen (c :: rest)))
        (by
          have h1 := matchLen_pos c rest
          simp only [List.length_drop, List.length_cons] at *
          omega)]
      exact List.take_append_drop _ _

theorem segment_flatten (l : List Nat) : concatAll (segment l) = l :=
  segmentAux_flatten l.length l le_rfl

theorem segmentAux_valid (fuel : Nat) (l : List Nat) :
    ∀ ch ∈ segmentAux fuel l, catCount ch = 1 := by
  induction fuel generalizing l with
  | zero => simp [segmentAux]
  | succ f ih =>
    cases l with
    | nil => simp [segmentAux]
    | cons c rest =>
      simp only [segmentAux]
      rw [if_neg (matchLen_pos c rest)]
      intro ch hch
      rcases List.mem_cons.mp hch with hh | hh
      · rw [hh]
        exact matchLen_take_valid c rest
      · exact ih _ ch hh

theorem segment_valid (l : List Nat) : ∀ ch ∈ segment l, catCount ch = 1 :=
  segmentAux_valid l.length l

theorem mem_concatAll {α : Type} (a : α) (c : List α) (cs : List (List α))
    (hc : c ∈ cs) (ha : a ∈ c) : a ∈ concatAll cs := by
  induction cs with
  | nil => simp at hc
  | cons d ds ih =>
    simp only [concatAll, List.mem_append]
    rcases List.mem_cons.mp hc with hh | hh
    · exact Or.inl (hh ▸ ha)
    · exact Or.inr (ih hh)

theorem mem_of_mem_segment (l : List Nat) (ch : List Nat) (a : Nat)
    (hch : ch ∈ segment l) (ha : a ∈ ch) : a ∈ l := by
  have := mem_concatAll a ch (segment l) hch ha
  rwa [segment_flatten] at this

/-! Lemmas about the pair statistics and tie-breaking. -/

theorem countOcc_append_single (k y : Nat × Nat) (l : List (Nat × Nat)) :
    countOcc k (l ++ [y]) = countOcc k l + (if k = y then 1 else 0) := by
  induction l with
  | nil =>
    simp only [List.nil_append, countOcc]
    by_cases h : k = y
    · simp [h]
    · simp [h, Ne.symm h]
  | cons z zs ih =>
    simp only [List.cons_append, countOcc, List.append_eq, ih]
    simp only [List.append_eq] at ih
    omega

theorem countOcc_eq_zero (x : Nat × Nat) (l : List (Nat × Nat)) :
    countOcc x l = 0 ↔ x ∉ l := by
  induction l with
  | nil => simp [countOcc]
  | cons y ys ih =>
    simp only [countOcc, List.mem_cons]
    by_cases h : y = x
    · simp [h]
    · simp only [if_neg h, ih]
      constructor
      · intro hh
        simp only [Nat.zero_add] at hh
        intro hor
        rcases hor with hor | hor
        · exact h hor.symm
        · exact (ih.mp hh) hor
      · intro hh
        simp only [Nat.zero_add]
        exact ih.mpr (fun hm => hh (Or.inr hm))

theorem firstIdx_lt_length (x : Nat × Nat) (l : List (Nat × Nat)) (h : x ∈ l) :
    firstIdx x l < l.length := by
  induction l with
  | nil => simp at h
  | cons y ys ih =>
    simp only [firstIdx, List.length_cons]
    by_cases hy : y = x
    · simp [hy]
    · rw [if_neg hy]
      rcases List.mem_cons.mp h with hh | hh
      · exact absurd hh.symm hy
      · have := ih hh
        omega

theorem firstIdx_append_left (x : Nat × Nat) (l w : List (Nat × Nat)) (h : x ∈ l) :
    firstIdx x (l ++ w) = firstIdx x l := by
  induction l with
  | nil => simp at h
  | cons y ys ih =>
    simp only [List.cons_append, firstIdx, List.append_eq]
    by_cases hy : y = x
    · simp [hy]
    · rw [if_neg hy, if_neg hy]
      rcases List.mem_cons.mp h with hh | hh
      · exact absurd hh.symm hy
      · have := ih hh
        simp only [List.append_eq] at this
        rw [this]

theorem firstIdx_append_fresh (x : Nat × Nat) (l : List (Nat × Nat)) (h : x ∉ l) :
    firstIdx x (l ++ [x]) = l.length := by
  induction l with
  | nil => simp [firstIdx]
  | cons y ys ih =>
    simp only [List.cons_append, firstIdx, List.length_cons, List.append_eq]
    rw [if_neg (fun hh : y = x => h (by simp [hh]))]
    have := ih (fun hh => h (by simp [hh]))
    simp only [List.append_eq] at this
    rw [this]

theorem incr_keys (st : List ((Nat × Nat) × Nat)) (x : Nat × Nat) :
    (incr st x).map Prod.fst =
      if x ∈ st.map Prod.fst then st.map Prod.fst else st.map Prod.fst ++ [x] := by
  induction st with
  | nil => simp [incr]
  | cons kv rest ih =>
    obtain ⟨k, v⟩ := kv
    simp only [incr, List.map_cons]
    by_cases hk : k = x
    · simp [hk]
    · rw [if_neg hk]
      simp only [List.map_cons, ih]
      by_cases hm : x ∈ rest.map Prod.fst
      · rw [if_pos hm, if_pos (by simp [hm])]
      · rw [if_neg hm, if_neg (by
          simp only [List.mem_cons]
          push_neg
          exact ⟨fun hh : x = k => hk hh.symm, hm⟩)]
        simp

theorem incr_append_fresh (st : List ((Nat × Nat) × Nat)) (x : Nat × Nat)
    (h : x ∉ st.map Prod.fst) : incr st x = st ++ [(x, 1)] := by
  induction st with
  | nil => simp [incr]
  | cons kv rest ih =>
    obtain ⟨k, v⟩ := kv
    simp only [List.map_cons, List.mem_cons] at h
    push_neg at h
    simp only [incr, if_neg (fun hh : k = x => h.1 hh.symm), List.cons_append]
    rw [ih h.2]

theorem incr_values (st : List ((Nat × Nat) × Nat)) (x : Nat × Nat)
    (g : Nat × Nat → Nat) (hnd : (st.map Prod.fst).Nodup)
    (hv : ∀ kv ∈ st, kv.2 = g kv.1) (hfresh : x ∉ st.map Prod.fst → g x = 0) :
    ∀ kv ∈ incr st x, kv.2 = g kv.1 + (if kv.1 = x then 1 else 0) := by
  induction st with
  | nil =>
    intro kv hkv
    simp only [incr, List.mem_singleton] at hkv
    subst hkv
    simp [hfresh (by simp)]
  | cons hd rest ih =>
    obtain ⟨k, v⟩ := hd
    simp only [List.map_cons, List.nodup_cons] at hnd
    intro kv hkv
    by_cases hk : k = x
    · simp only [incr, if_pos hk] at hkv
      rcases List.mem_cons.mp hkv with hh | hh
      · subst hh
        simp only [if_pos hk]
        have := hv (k, v) (by simp)
        simp only at this
        omega
      · have hkv1 : kv.1 ∈ rest.map Prod.fst := List.mem_map_of_mem Prod.fst hh
        have hne : kv.1 ≠ x := by
          intro hh2
          rw [hh2, ← hk] at hkv1
          exact hnd.1 hkv1
        rw [if_neg hne]
        simpa using hv kv (by simp [hh])
    · simp only [incr, if_neg hk] at hkv
      rcases List.mem_cons.mp hkv with hh | hh
      · subst hh
        rw [if_neg (fun hh2 : (k, v).1 = x => hk hh2)]
        simpa using hv (k, v) (by simp)
      · exact ih hnd.2 (fun kv2 hkv2 => hv kv2 (by simp [hkv2]))
          (fun hm => hfresh (by
            simp only [List.map_cons, List.mem_cons]
            push_neg
            exact ⟨fun hh => hk hh.symm, hm⟩)) kv hh

theorem buildStats_append (l : List (Nat × Nat)) (x : Nat × Nat) :
    buildStats (l ++ [x]) = incr (buildStats l) x := by
  simp [buildStats, List.foldl_append]

theorem statsOK_build (l : List (Nat × Nat)) : StatsOK l (buildStats l) := by
  induction l using List.reverseRecOn with
  | nil =>
    refine ⟨by simp [buildStats], by simp [buildStats], by simp [buildStats],
      by simp [buildStats]⟩
  | append_singleton l x ih =>
    obtain ⟨S1, S2, S3, S4⟩ := ih
    rw [buildStats_append]
    by_cases hx : x ∈ (buildStats l).map Prod.fst
    · refine ⟨?_, ?_, ?_, ?_⟩
      · intro kv hkv
        have := incr_values (buildStats l) x (fun k => countOcc k l) S3 S1
          (fun hm => absurd hx hm) kv hkv
        rw [this, countOcc_append_single]
      · intro k
        rw [incr_keys, if_pos hx]
        simp only [List.mem_append, List.mem_singleton]
        constructor
        · intro hh
          rcases hh with hh | hh
          · exact (S2 k).mp hh
          · rw [hh]; exact hx
        · intro hh
          exact Or.inl ((S2 k).mpr hh)
      · rw [incr_keys, if_pos hx]
        exact S3
      · rw [incr_keys, if_pos hx]
        refine S4.imp_of_mem ?_
        intro a b ha hb hab
        rw [firstIdx_append_left a l [x] ((S2 a).mpr ha),
          firstIdx_append_left b l [x] ((S2 b).mpr hb)]
        exact hab
    · have hxl : x ∉ l := fun hh => hx ((S2 x).mp hh)
      rw [incr_append_fresh _ _ hx]
      refine ⟨?_, ?_, ?_, ?_⟩
      · intro kv hkv
        rcases List.mem_append.mp hkv with hh | hh
        · rw [S1 kv hh, countOcc_append_single]
          have : kv.1 ≠ x := by
            intro hh2
            rw [← hh2] at hx
            exact hx (List.mem_map_of_mem Prod.fst hh)
          rw [if_neg this]
          omega
        · simp only [List.mem_singleton] at hh
          subst hh
          rw [countOcc_append_single, (countOcc_eq_zero x l).mpr hxl]
          simp
      · intro k
        simp only [List.map_append, List.map_cons, List.map_nil, List.mem_append,
          List.mem_singleton, S2 k]
      · simp only [List.map_append, List.map_cons, List.map_nil]
        rw [List.nodup_append]
        exact ⟨S3, List.nodup_singleton x, by simpa using hx⟩
      · simp only [List.map_append, List.map_cons, List.map_nil]
        rw [List.pairwise_append]
        refine ⟨?_, by simp, ?_⟩
        · refine S4.imp_of_mem ?_
          intro a b ha hb hab
          rw [firstIdx_append_left a l [x] ((S2 a).mpr ha),
            firstIdx_append_left b l [x] ((S2 b).mpr hb)]
          exact hab
        · intro a ha b hb
          simp only [List.mem_singleton] at hb
          rw [hb, firstIdx_append_left a l [x] ((S2 a).mpr ha),
            firstIdx_append_fresh x l hxl]
          exact firstIdx_lt_length a l ((S2 a).mpr ha)

theorem mem_insertDesc (x y : (Nat × Nat) × Nat) (l : List ((Nat × Nat) × Nat)) :
    y ∈ insertDesc x l ↔ y = x ∨ y ∈ l := by
  induction l with
  | nil => simp [insertDesc]
  | cons z zs ih =>
    simp only [insertDesc]
    split
    all_goals simp only [List.mem_cons, ih]
    all_goals tauto

theorem mem_sortDesc (y : (Nat × Nat) × Nat) (l : List ((Nat × Nat) × Nat)) :
    y ∈ sortDesc l ↔ y ∈ l := by
  induction l with
  | nil => simp [sortDesc]
  | cons x xs ih =>
    simp only [sortDesc, mem_insertDesc, List.mem_cons, ih]

theorem sortedD_insertDesc (x : (Nat × Nat) × Nat) (l : List ((Nat × Nat) × Nat))
    (h : SortedD l) : SortedD (insertDesc x l) := by
  induction l with
  | nil => exact List.pairwise_singleton _ x
  | cons y ys ih =>
    have h' := List.pairwise_cons.mp
      (show List.Pairwise (fun a b => b.2 ≤ a.2) (y :: ys) from h)
    simp only [insertDesc]
    split
    · rename_i hcmp
      show List.Pairwise (fun a b => b.2 ≤ a.2) (y :: insertDesc x ys)
      rw [List.pairwise_cons]
      refine ⟨?_, ih h'.2⟩
      intro z hz
      rcases (mem_insertDesc x z ys).mp hz with hz | hz
      · rw [hz]; omega
      · exact h'.1 z hz
    · rename_i hcmp
      show List.Pairwise (fun a b => b.2 ≤ a.2) (x :: y :: ys)
      rw [List.pairwise_cons]
      refine ⟨?_, h⟩
      intro z hz
      rcases List.mem_cons.mp hz with hz | hz
      · rw [hz]; omega
      · have := h'.1 z hz
        omega

theorem sortedD_sortDesc (l : List ((Nat × Nat) × Nat)) : SortedD (sortDesc l) := by
  induction l with
  | nil => exact List.Pairwise.nil
  | cons x xs ih => exact sortedD_insertDesc x (sortDesc xs) ih

theorem sortDesc_nil_iff (l : List ((Nat × Nat) × Nat)) :
    sortDesc l = [] ↔ l = [] := by
  cases l with
  | nil => simp [sortDesc]
  | cons x xs =>
    simp only [sortDesc]
    constructor
    · intro h
      have : x ∈ insertDesc x (sortDesc xs) := (mem_insertDesc x x _).mpr (Or.inl rfl)
      rw [h] at this
      simp at this
    · intro h
      exact absurd h (by simp)

theorem sortDesc_head (l : List ((Nat × Nat) × Nat)) (m : (Nat × Nat) × Nat)
    (t : List ((Nat × Nat) × Nat)) (h : sortDesc l = m :: t) : IsFirstMax m l := by
  induction l generalizing m t with
  | nil => simp [sortDesc] at h
  | cons x xs ih =>
    simp only [sortDesc] at h
    cases hs : sortDesc xs with
    | nil =>
      rw [hs] at h
      simp only [insertDesc] at h
      have hxs : xs = [] := (sortDesc_nil_iff xs).mp hs
      subst hxs
      injection h with h1 h2
      refine ⟨[], [], by simp [h1], by simp, ?_⟩
      intro y hy
      simp only [List.mem_singleton] at hy
      rw [hy, h1]
    | cons y ys =>
      rw [hs] at h
      simp only [insertDesc] at h
      by_cases hcmp : x.2 < y.2
      · rw [if_pos hcmp] at h
        injection h with h1 h2
        obtain ⟨l1, l2, hsplit, hlt, hle⟩ := ih y ys hs
        rw [← h1]
        refine ⟨x :: l1, l2, by rw [hsplit, List.cons_append], ?_, ?_⟩
        · intro z hz
          rcases List.mem_cons.mp hz with hz | hz
          · rw [hz]; exact hcmp
          · exact hlt z hz
        · intro z hz
          rcases List.mem_cons.mp hz with hz | hz
          · rw [hz]; omega
          · exact hle z hz
      · rw [if_neg hcmp] at h
        injection h with h1 h2
        rw [← h1]
        refine ⟨[], xs, rfl, by simp, ?_⟩
        intro z hz
        rcases List.mem_cons.mp hz with hz | hz
        · rw [hz]
        · have hz' : z ∈ sortDesc xs := (mem_sortDesc z xs).mpr hz
          rw [hs] at hz'
          rcases List.mem_cons.mp hz' with hz' | hz'
          · rw [hz']; omega
          · have hsor := sortedD_sortDesc xs
            rw [hs] at hsor
            have := (List.pairwise_cons.mp hsor).1 z hz'
            omega

theorem foldl_best_const (t : List ((Nat × Nat) × Nat)) (b : (Nat × Nat) × Nat)
    (h : ∀ y ∈ t, y.2 ≤ b.2) :
    t.foldl (fun best y => if best.2 < y.2 then y else best) b = b := by
  induction t generalizing b with
  | nil => rfl
  | cons y ys ih =>
    simp only [List.foldl_cons]
    rw [if_neg (by have := h y (by simp); omega)]
    exact ih b (fun z hz => h z (by simp [hz]))

theorem pythonMax_sorted (m : (Nat × Nat) × Nat) (t : List ((Nat × Nat) × Nat))
    (h : ∀ y ∈ t, y.2 ≤ m.2) : pythonMax (m :: t) = some m := by
  simp only [pythonMax]
  rw [foldl_best_const t m h]

theorem selectPair_spec (chunks : List (List Nat)) (kv : (Nat × Nat) × Nat)
    (h : selectPair chunks = some kv) :
    IsFirstMax kv (buildStats (allPairs chunks)) := by
  simp only [selectPair, statsChunks] at h
  cases hs : sortDesc (buildStats (allPairs chunks)) with
  | nil => rw [hs] at h; simp [pythonMax] at h
  | cons m t =>
    rw [hs] at h
    have hsor := sortedD_sortDesc (buildStats (allPairs chunks))
    rw [hs] at hsor
    have hmax : ∀ y ∈ t, y.2 ≤ m.2 := (List.pairwise_cons.mp hsor).1
    rw [pythonMax_sorted m t hmax] at h
    simp only [Option.some_inj] at h
    rw [← h]
    exact sortDesc_head _ m t hs

theorem countOcc_pos (x : Nat × Nat) (l : List (Nat × Nat)) (h : x ∈ l) :
    0 < countOcc x l := by
  rcases Nat.eq_zero_or_pos (countOcc x l) with hz | hp
  · exact absurd h ((countOcc_eq_zero x l).mp hz)
  · exact hp

theorem exists_entry_of_mem_keys (st : List ((Nat × Nat) × Nat)) (k : Nat × Nat)
    (h : k ∈ st.map Prod.fst) : ∃ w, (k, w) ∈ st := by
  obtain ⟨kv, hkv, hk⟩ := List.mem_map.mp h
  refine ⟨kv.2, ?_⟩
  rw [← hk]
  exact hkv

/-- The selected pair has maximal count, its count is recorded faithfully, it
occurs in the scanned pairs, and every distinct pair tying for the maximal
count occurs strictly later in the scan. -/
theorem selected_max_and_first (chunks : List (List Nat)) (kv : (Nat × Nat) × Nat)
    (h : selectPair chunks = some kv) :
    (∀ q, countOcc q (allPairs chunks) ≤ countOcc kv.1 (allPairs chunks)) ∧
    (∀ q, q ≠ kv.1 → countOcc q (allPairs chunks) = countOcc kv.1 (allPairs chunks) →
      firstIdx kv.1 (allPairs chunks) < firstIdx q (allPairs chunks)) ∧
    kv.2 = countOcc kv.1 (allPairs chunks) ∧ kv.1 ∈ allPairs chunks := by
  obtain ⟨S1, S2, S3, S4⟩ := statsOK_build (allPairs chunks)
  obtain ⟨l1, l2, hsplit, hlt, hle⟩ := selectPair_spec chunks kv h
  have hmem : kv ∈ buildStats (allPairs chunks) := by
    rw [hsplit]; simp
  have hv : kv.2 = countOcc kv.1 (allPairs chunks) := S1 kv hmem
  have hmemL : kv.1 ∈ allPairs chunks :=
    (S2 kv.1).mpr (List.mem_map_of_mem Prod.fst hmem)
  have hmax : ∀ q, countOcc q (allPairs chunks) ≤ countOcc kv.1 (allPairs chunks) := by
    intro q
    by_cases hq : q ∈ allPairs chunks
    · obtain ⟨w, hw⟩ := exists_entry_of_mem_keys _ q ((S2 q).mp hq)
      have hwv : w = countOcc q (allPairs chunks) := S1 (q, w) hw
      have := hle (q, w) hw
      simp only at this
      omega
    · rw [(countOcc_eq_zero q _).mpr hq]
      exact Nat.zero_le _
  refine ⟨hmax, ?_, hv, hmemL⟩
  intro q hq hcnt
  have hposk : 0 < countOcc kv.1 (allPairs chunks) := countOcc_pos _ _ hmemL
  have hqL : q ∈ allPairs chunks := by
    by_contra hc
    rw [(countOcc_eq_zero q _).mpr hc] at hcnt
    omega
  obtain ⟨w, hw⟩ := exists_entry_of_mem_keys _ q ((S2 q).mp hqL)
  have hwv : w = countOcc q (allPairs chunks) := S1 (q, w) hw
  rw [hsplit] at hw
  rcases List.mem_append.mp hw with hw1 | hw1
  · have := hlt (q, w) hw1
    simp only at this
    omega
  · rcases List.mem_cons.mp hw1 with hw2 | hw2
    · have : q = kv.1 := congrArg Prod.fst hw2
      exact absurd this hq
    · rw [hsplit] at S4
      simp only [List.map_append, List.map_cons] at S4
      have hpair := (List.pairwise_append.mp S4).2.1
      have := (List.pairwise_cons.mp hpair).1 q (List.mem_map_of_mem Prod.fst hw2)
      exact this

/-! Lemmas about chunk pairs and the training step. -/

theorem mem_allPairs (p : Nat × Nat) (chunks : List (List Nat)) :
    p ∈ allPairs chunks ↔ ∃ c ∈ chunks, p ∈ chunkPairs c := by
  unfold allPairs
  induction chunks with
  | nil => simp [concatAll]
  | cons c cs ih =>
    simp only [List.map_cons, concatAll, List.mem_append, ih, List.mem_cons]
    constructor
    · intro hh
      rcases hh with hh | ⟨d, hd, hp⟩
      · exact ⟨c, Or.inl rfl, hh⟩
      · exact ⟨d, Or.inr hd, hp⟩
    · intro ⟨d, hd, hp⟩
      rcases hd with hd | hd
      · exact Or.inl (hd ▸ hp)
      · exact Or.inr ⟨d, hd, hp⟩

theorem chunkPairs_mem (p : Nat × Nat) (c : List Nat) (h : p ∈ chunkPairs c) :
    p.1 ∈ c ∧ p.2 ∈ c := by
  induction c using chunkPairs.induct with
  | case1 a b rest ih =>
    simp only [chunkPairs, List.mem_cons] at h
    rcases h with h | h
    · rw [h]
      exact ⟨by simp, by simp⟩
    · have := ih h
      exact ⟨by simp [this.1], by simp [this.2]⟩
  | case2 c hc =>
    cases c with
    | nil => simp [chunkPairs] at h
    | cons a t =>
      cases t with
      | nil => simp [chunkPairs] at h
      | cons b rest => exact (hc a b rest rfl).elim

theorem chunkPairs_split (p : Nat × Nat) (c : List Nat) (h : p ∈ chunkPairs c) :
    ∃ u w, c = u ++ p.1 :: p.2 :: w := by
  induction c using chunkPairs.induct with
  | case1 a b rest ih =>
    simp only [chunkPairs, List.mem_cons] at h
    rcases h with h | h
    · refine ⟨[], rest, ?_⟩
      rw [h]
      rfl
    · obtain ⟨u, w, hw⟩ := ih h
      exact ⟨a :: u, w, by rw [List.cons_append, ← hw]⟩
  | case2 c hc =>
    cases c with
    | nil => simp [chunkPairs] at h
    | cons a t =>
      cases t with
      | nil => simp [chunkPairs] at h
      | cons b rest => exact (hc a b rest rfl).elim

theorem chunkPairs_pairInChunk (p : Nat × Nat) (c : List Nat)
    (h : p ∈ chunkPairs c) : pairInChunk p c = true := by
  induction c using chunkPairs.induct with
  | case1 a b rest ih =>
    simp only [chunkPairs, List.mem_cons] at h
    simp only [pairInChunk, Bool.or_eq_true, Bool.and_eq_true, decide_eq_true_eq]
    rcases h with h | h
    · left
      exact ⟨(congrArg Prod.fst h).symm, (congrArg Prod.snd h).symm⟩
    · exact Or.inr (ih h)
  | case2 c hc =>
    cases c with
    | nil => simp [chunkPairs] at h
    | cons a t =>
      cases t with
      | nil => simp [chunkPairs] at h
      | cons b rest => exact (hc a b rest rfl).elim

theorem forall₂_map_left (P : List Nat → List Nat → Prop) (f : List Nat → List Nat)
    (l o : List (List Nat)) (h : List.Forall₂ (fun c oo => P (f c) oo) l o) :
    List.Forall₂ P (l.map f) o := by
  induction h with
  | nil => simp
  | cons hh _ ih => simpa using List.Forall₂.cons hh ih

theorem forall₂_mem_left (P : List Nat → List Nat → Prop) (l o : List (List Nat))
    (c : List Nat) (hc : c ∈ l) (h : List.Forall₂ P l o) :
    ∃ oo ∈ o, P c oo := by
  induction h with
  | nil => simp at hc
  | cons hh ht ih =>
    rcases List.mem_cons.mp hc with hc | hc
    · exact ⟨_, by simp, hc ▸ hh⟩
    · obtain ⟨oo, hoo, hp⟩ := ih hc
      exact ⟨oo, by simp [hoo], hp⟩

theorem totalSyms_map_le (chunks : List (List Nat)) (p : Nat × Nat) (idx : Nat) :
    totalSyms (chunks.map (fun c => replace_pairs c p idx)) ≤ totalSyms chunks := by
  induction chunks with
  | nil => simp [totalSyms]
  | cons c cs ih =>
    simp only [totalSyms, List.map_cons, List.sum_cons] at *
    have := rp_length_le c p idx
    omega

theorem totalSyms_map_lt (chunks : List (List Nat)) (p : Nat × Nat) (idx : Nat)
    (h : ∃ c ∈ chunks, p ∈ chunkPairs c) :
    totalSyms (chunks.map (fun c => replace_pairs c p idx)) < totalSyms chunks := by
  induction chunks with
  | nil => simp at h
  | cons c cs ih =>
    simp only [totalSyms, List.map_cons, List.sum_cons] at *
    obtain ⟨d, hd, hp⟩ := h
    rcases List.mem_cons.mp hd with hd | hd
    · have h1 := rp_length_lt c p idx (chunkPairs_pairInChunk p c (hd ▸ hp))
      have h2 := totalSyms_map_le cs p idx
      simp only [totalSyms] at h2
      omega
    · have h1 := rp_length_le c p idx
      have h2 := ih ⟨d, hd, hp⟩
      omega

theorem stats_all_le_one_iff (chunks : List (List Nat)) :
    ((statsChunks chunks).all (fun kv => kv.2 ≤ 1) = true) ↔
      (∀ q, countOcc q (allPairs chunks) ≤ 1) := by
  obtain ⟨S1, S2, S3, S4⟩ := statsOK_build (allPairs chunks)
  simp only [List.all_eq_true, decide_eq_true_eq]
  constructor
  · intro h q
    by_cases hq : q ∈ allPairs chunks
    · obtain ⟨w, hw⟩ := exists_entry_of_mem_keys _ q ((S2 q).mp hq)
      have hwv : w = countOcc q (allPairs chunks) := S1 (q, w) hw
      have := h (q, w) ((mem_sortDesc _ _).mpr hw)
      simp only at this
      omega
    · rw [(countOcc_eq_zero q _).mpr hq]
      omega
  · intro h kv hkv
    have := S1 kv ((mem_sortDesc _ _).mp hkv)
    rw [this]
    exact h kv.1

theorem trainStep_none_iff (target : Nat) (s : BPEState) :
    trainStep target s = none ↔
      ((∀ q, countOcc q (allPairs s.chunks) ≤ 1) ∨ target ≤ s.vocab.length) := by
  constructor
  · intro h
    by_cases hA : (statsChunks s.chunks).all (fun kv => kv.2 ≤ 1) = true
    · exact Or.inl ((stats_all_le_one_iff s.chunks).mp hA)
    · right
      simp only [trainStep] at h
      rw [if_neg (by simpa using hA)] at h
      by_cases hB : target ≤ s.vocab.length
      · exact hB
      · rw [if_neg hB] at h
        exfalso
        have hne : statsChunks s.chunks ≠ [] := by
          intro hnil
          exact hA (by rw [hnil]; rfl)
        cases hst : statsChunks s.chunks with
        | nil => exact hne hst
        | cons m t =>
          rw [hst] at h
          simp [pythonMax] at h
  · intro h
    rcases h with h | h
    · simp only [trainStep]
      rw [if_pos (by simpa using (stats_all_le_one_iff s.chunks).mpr h)]
    · simp only [trainStep]
      by_cases hA : (statsChunks s.chunks).all (fun kv => kv.2 ≤ 1) = true
      · rw [if_pos (by simpa using hA)]
      · rw [if_neg (by simpa using hA), if_pos h]

theorem trainStep_some_spec (target : Nat) (s s' : BPEState)
    (h : trainStep target s = some s') :
    ∃ kv, selectPair s.chunks = some kv ∧ 1 < kv.2 ∧ s.vocab.length < target ∧
      s' = ⟨s.chunks.map (fun c => replace_pairs c kv.1 (256 + s.merges.length)),
            s.vocab ++ [(256 + s.merges.length,
              lookupExp s.vocab kv.1.1 ++ lookupExp s.vocab kv.1.2)],
            s.merges ++ [(kv.1, 256 + s.merges.length)]⟩ := by
  simp only [trainStep] at h
  by_cases hA : (statsChunks s.chunks).all (fun kv => kv.2 ≤ 1) = true
  · rw [if_pos (by simpa using hA)] at h
    simp at h
  · rw [if_neg (by simpa using hA)] at h
    by_cases hB : target ≤ s.vocab.length
    · rw [if_pos hB] at h
      simp at h
    · rw [if_neg hB] at h
      cases hmax : pythonMax (statsChunks s.chunks) with
      | none => rw [hmax] at h; simp at h
      | some kv =>
        rw [hmax] at h
        simp only [Option.some_inj] at h
        refine ⟨kv, hmax, ?_, by omega, h.symm⟩
        obtain ⟨l1, l2, hsplit, hlt, hle⟩ := selectPair_spec s.chunks kv hmax
        have hex : ∃ kv' ∈ statsChunks s.chunks, ¬ (kv'.2 ≤ 1) := by
          by_contra hc
          push_neg at hc
          exact hA (List.all_eq_true.mpr
            (fun kv' hkv' => by simpa using hc kv' hkv'))
        obtain ⟨kv', hkv', hgt⟩ := hex
        have := hle kv' ((mem_sortDesc _ _).mp hkv')
        omega

theorem goodState_step (orig : List (List Nat)) (target : Nat) (s s' : BPEState)
    (hg : GoodState orig s) (h : trainStep target s = some s') :
    GoodState orig s' := by
  obtain ⟨K, L, B, M, C, F⟩ := hg
  obtain ⟨kv, hsel, hgt1, htg, hs'⟩ := trainStep_some_spec target s s' h
  obtain ⟨hmax, hties, hcnt, hmemL⟩ := selected_max_and_first s.chunks kv hsel
  set p := kv.1 with hp
  set idx := 256 + s.merges.length with hidx
  have hidxlen : idx = s.vocab.length := by omega
  obtain ⟨c0, hc0, hpc0⟩ := (mem_allPairs p s.chunks).mp hmemL
  have hpm := chunkPairs_mem p c0 hpc0
  have hp1 : p.1 < s.vocab.length := C c0 hc0 p.1 hpm.1
  have hp2 : p.2 < s.vocab.length := C c0 hc0 p.2 hpm.2
  obtain ⟨el, hel⟩ := vlookup_some_of_mem_keys s.vocab p.1
    (by rw [K]; exact List.mem_range.mpr hp1)
  obtain ⟨er, her⟩ := vlookup_some_of_mem_keys s.vocab p.2
    (by rw [K]; exact List.mem_range.mpr hp2)
  have hexp1 : lookupExp s.vocab p.1 = el := by simp [lookupExp, hel]
  have hexp2 : lookupExp s.vocab p.2 = er := by simp [lookupExp, her]
  have hfresh : idx ∉ s.vocab.map Prod.fst := by
    rw [K, hidxlen]
    simp
  have hnew : vlookup (s.vocab ++ [(idx, lookupExp s.vocab p.1 ++ lookupExp s.vocab p.2)])
      idx = some (el ++ er) := by
    rw [hexp1, hexp2]
    exact vlookup_append_fresh _ _ _ hfresh
  have hruleOK : RuleOK (s.vocab ++ [(idx, lookupExp s.vocab p.1 ++ lookupExp s.vocab p.2)])
      (p, idx) :=
    ⟨el, er, vlookup_append_some _ _ _ _ hel, vlookup_append_some _ _ _ _ her, hnew⟩
  subst hs'
  refine ⟨?_, ?_, ?_, ?_, ?_, ?_⟩
  · simp only [List.map_append, List.map_cons, List.map_nil, List.length_append,
      List.length_cons, List.length_nil]
    rw [K, hidxlen, Nat.add_zero, ← List.range_succ]
  · simp only [List.length_append, List.length_cons, List.length_nil]
    omega
  · intro b hb
    exact vlookup_append_some _ _ _ _ (B b hb)
  · intro r hr
    simp only at hr
    rcases List.mem_append.mp hr with hr | hr
    · obtain ⟨h256, hrok, o, ho, e, he, hinf⟩ := M r hr
      refine ⟨h256, ?_, o, ho, e, vlookup_append_some _ _ _ _ he, hinf⟩
      obtain ⟨a, b2, ha, hb2, hc2⟩ := hrok
      exact ⟨a, b2, vlookup_append_some _ _ _ _ ha,
        vlookup_append_some _ _ _ _ hb2, vlookup_append_some _ _ _ _ hc2⟩
    · simp only [List.mem_singleton] at hr
      subst hr
      refine ⟨by omega, hruleOK, ?_⟩
      obtain ⟨o, ho, hdec⟩ := forall₂_mem_left _ _ _ c0 hc0 F
      obtain ⟨u, w, hcw⟩ := chunkPairs_split p c0 hpc0
      rw [hcw] at hdec
      obtain ⟨b1, b2, hd1, hd2, hbb⟩ := decode_append_inv _ _ _ _ hdec
      rw [decode_cons, hel] at hd2
      cases hd3 : decode (p.2 :: w) s.vocab with
      | none => rw [hd3] at hd2; simp at hd2
      | some r2 =>
        rw [hd3] at hd2
        rw [decode_cons, her] at hd3
        cases hd4 : decode w s.vocab with
        | none => rw [hd4] at hd3; simp at hd3
        | some b3 =>
          rw [hd4] at hd3
          simp only [Option.some_inj] at hd2 hd3
          refine ⟨o, ho, el ++ er, hnew, b1, b3, ?_⟩
          rw [hbb, ← hd2, ← hd3]
          simp [List.append_assoc]
  · intro c hc sym hsym
    simp only [List.mem_map] at hc
    obtain ⟨d, hd, hdc⟩ := hc
    simp only [List.length_append, List.length_cons, List.length_nil]
    rcases rp_mem d p idx sym (hdc ▸ hsym) with hh | hh
    · have := C d hd sym hh
      omega
    · omega
  · simp only []
    apply forall₂_map_left
    refine F.imp ?_
    intro c o hco
    exact rp_decode c p idx _ hruleOK o (decode_mono c _ _ o hco)

theorem goodState_loop (orig : List (List Nat)) (target fuel : Nat) (s : BPEState)
    (hg : GoodState orig s) : GoodState orig (trainLoop target fuel s) := by
  induction fuel generalizing s with
  | zero => exact hg
  | succ f ih =>
    simp only [trainLoop]
    cases hstep : trainStep target s with
    | none => exact hg
    | some s' => exact ih s' (goodState_step orig target s s' hg hstep)

theorem goodState_init (corpus : List Nat) (hb : ∀ b ∈ corpus, b < 256) :
    GoodState (segment corpus) ⟨segment corpus, byteVocab, []⟩ := by
  have hlen : byteVocab.length = 256 := byteVocabAux_length 256
  refine ⟨?_, ?_, ?_, ?_, ?_, ?_⟩
  · show byteVocab.map Prod.fst = List.range byteVocab.length
    rw [hlen]
    exact byteVocabAux_keys 256
  · show byteVocab.length = 256 + 0
    rw [hlen]
  · intro b hb2
    exact byteVocabAux_lookup 256 b hb2
  · intro r hr
    simp at hr
  · intro c hc sym hsym
    show sym < byteVocab.length
    rw [hlen]
    exact hb sym (mem_of_mem_segment corpus c sym hc hsym)
  · refine List.forall₂_same.mpr ?_
    intro c hc
    exact decode_bytes c byteVocab
      (fun b hbm => hb b (mem_of_mem_segment corpus c b hc hbm))
      (fun b hb2 => byteVocabAux_lookup 256 b hb2)

theorem goodState_train (corpus : List Nat) (target : Nat)
    (hb : ∀ b ∈ corpus, b < 256) :
    GoodState (segment corpus) (train corpus target) := by
  unfold train trainOn
  exact goodState_loop _ _ _ _ (goodState_init corpus hb)

/-! Lemmas about the Encoder. -/

theorem encodeChunk_decode (m : List ((Nat × Nat) × Nat)) (v : List (Nat × List Nat))
    (hm : ∀ r ∈ m, RuleOK v r) (fuel : Nat) (c b : List Nat)
    (h : decode c v = some b) : decode (encodeChunk m fuel c) v = some b := by
  induction fuel generalizing c with
  | zero => exact h
  | succ f ih =>
    simp only [encodeChunk]
    cases hf : findRule m c with
    | none => exact h
    | some r =>
      have hr : RuleOK v r := hm r (List.mem_of_find?_eq_some hf)
      exact ih _ (rp_decode c r.1 r.2 v hr b h)

theorem decode_concatAll (v : List (Nat × List Nat)) (chs os : List (List Nat))
    (h : List.Forall₂ (fun c o => decode c v = some o) chs os) :
    decode (concatAll chs) v = some (concatAll os) := by
  induction h with
  | nil => rfl
  | cons hh ht ih =>
    simp only [concatAll]
    exact decode_append _ _ _ _ _ hh ih

theorem encode_decode (x : List Nat) (v : List (Nat × List Nat))
    (m : List ((Nat × Nat) × Nat)) (hx : ∀ b ∈ x, b < 256)
    (hv : ∀ b, b < 256 → vlookup v b = some [b]) (hm : ∀ r ∈ m, RuleOK v r) :
    decode (encode x m) v = some x := by
  unfold encode
  have hf : List.Forall₂ (fun c o => decode c v = some o)
      ((segment x).map (encodeChunkF m)) (segment x) := by
    apply forall₂_map_left
    refine List.forall₂_same.mpr ?_
    intro c hc
    exact encodeChunk_decode m v hm _ c c
      (decode_bytes c v (fun b hbm => hx b (mem_of_mem_segment x c b hc hbm)) hv)
  have := decode_concatAll v _ _ hf
  rwa [segment_flatten] at this

theorem encodeChunk_stop (m : List ((Nat × Nat) × Nat)) (fuel : Nat) (c : List Nat)
    (h : findRule m c = none) : encodeChunk m fuel c = c := by
  cases fuel with
  | zero => rfl
  | succ f => simp [encodeChunk, h]

theorem encodeChunk_of_pos (m : List ((Nat × Nat) × Nat)) (fuel : Nat)
    (c : List Nat) (r : (Nat × Nat) × Nat) (hfuel : 0 < fuel)
    (h : findRule m c = some r) :
    encodeChunk m fuel c = encodeChunk m (fuel - 1) (replace_pairs c r.1 r.2) := by
  cases fuel with
  | zero => omega
  | succ f => simp [encodeChunk, h]

/-! The claims. -/

/-- Claim C1: for every byte sequence x and every vocabulary and ordered merge list
produced by training on any byte input, decoding the token sequence obtained
by encoding x yields exactly x, where decode is a pure per-token lookup of
each stored expansion concatenated in order. -/
theorem C1_round_trip (x corpus : List Nat) (target : Nat)
    (hx : ∀ b ∈ x, b < 256) (hc : ∀ b ∈ corpus, b < 256) :
    decode (encode x (train corpus target).merges) (train corpus target).vocab =
      some x := by
  obtain ⟨K, L, B, M, C, F⟩ := goodState_train corpus target hc
  exact encode_decode x _ _ hx B (fun r hr => (M r hr).2.1)

/-- Witness for C1 at a concrete text and corpus. -/
theorem C1_round_trip_witness :
    decode (encode [104, 105] (train [97, 98, 97, 98] 257).merges)
      (train [97, 98, 97, 98] 257).vocab = some [104, 105] :=
  C1_round_trip [104, 105] [97, 98, 97, 98] 257 (by decide) (by decide)

/-- Claim C2: training stops exactly when no adjacent pair has count greater than 1
or the vocabulary has reached the target size; training on the
character-level input "ababcabcd" with target vocabulary size 6 performs
exactly the merges (a,b) to 256 then (256,c) to 257, no third merge, ending
with the four-symbol chunk 256 257 257 100 and a vocabulary of size 6. -/
theorem C2_stopping_rule :
    (∀ target : Nat, ∀ s : BPEState, trainStep target s = none ↔
      ((∀ q, countOcc q (allPairs s.chunks) ≤ 1) ∨ target ≤ s.vocab.length)) ∧
    (trainOn [ababChunk] ababVocab 6).merges = [((97, 98), 256), ((256, 99), 257)] ∧
    (trainOn [ababChunk] ababVocab 6).chunks = [[256, 257, 257, 100]] ∧
    (trainOn [ababChunk] ababVocab 6).vocab.length = 6 :=
  ⟨fun target s => trainStep_none_iff target s, by decide, by decide, by decide⟩

/-- Claim C3: the pair selected for merging has maximal occurrence count over the
left-to-right chunk-order scan of adjacent pairs, and any distinct pair tying
for that count first occurs strictly later in the scan, so selection is the
first-encountered maximal pair. -/
theorem C3_deterministic_tie_break (chunks : List (List Nat))
    (kv : (Nat × Nat) × Nat) (h : selectPair chunks = some kv) :
    (∀ q, countOcc q (allPairs chunks) ≤ countOcc kv.1 (allPairs chunks)) ∧
    (∀ q, q ≠ kv.1 → countOcc q (allPairs chunks) = countOcc kv.1 (allPairs chunks) →
      firstIdx kv.1 (allPairs chunks) < firstIdx q (allPairs chunks)) := by
  obtain ⟨h1, h2, _, _⟩ := selected_max_and_first chunks kv h
  exact ⟨h1, h2⟩

/-- Witness for C3 on chunks with a genuine tie between two pairs. -/
theorem C3_deterministic_tie_break_witness :
    (∀ q, countOcc q (allPairs [[1, 2, 3, 1, 2, 3]]) ≤
      countOcc (1, 2) (allPairs [[1, 2, 3, 1, 2, 3]])) ∧
    (∀ q, q ≠ (1, 2) →
      countOcc q (allPairs [[1, 2, 3, 1, 2, 3]]) =
        countOcc (1, 2) (allPairs [[1, 2, 3, 1, 2, 3]]) →
      firstIdx (1, 2) (allPairs [[1, 2, 3, 1, 2, 3]]) <
        firstIdx q (allPairs [[1, 2, 3, 1, 2, 3]])) :=
  C3_deterministic_tie_break [[1, 2, 3, 1, 2, 3]] ((1, 2), 2) (by decide)

/-- Claim C4: rewriting replaces non-overlapping left-to-right occurrences and
continues past the consumed pair: a run of three equal symbols with the
doubled pair yields one merged symbol then one unmerged symbol, and in
general runs of 2n and 2n+1 equal symbols yield n merged symbols with no
overlapping merge. -/
theorem C4_non_overlapping :
    (∀ a idx : Nat, replace_pairs [a, a, a] (a, a) idx = [idx, a]) ∧
    (∀ n a idx : Nat,
      replace_pairs (List.replicate (2 * n) a) (a, a) idx = List.replicate n idx) ∧
    (∀ n a idx : Nat,
      replace_pairs (List.replicate (2 * n + 1) a) (a, a) idx =
        List.replicate n idx ++ [a]) := by
  refine ⟨?_, rp_replicate_even, rp_replicate_odd⟩
  intro a idx
  simp [replace_pairs]

/-- Claim C5: every merge recorded during byte-level training, at every step count
k, maps to a symbol of at least 256 whose vocabulary entry is exactly the
concatenation of the vocabulary entries of its left and right symbols, so
decoding a symbol is a pure lookup. -/
theorem C5_vocab_invariant (corpus : List Nat) (target k : Nat)
    (hc : ∀ b ∈ corpus, b < 256) (p : Nat × Nat) (idx : Nat)
    (hm : (p, idx) ∈ (trainLoop target k ⟨segment corpus, byteVocab, []⟩).merges) :
    256 ≤ idx ∧ ∃ el er,
      vlookup (trainLoop target k ⟨segment corpus, byteVocab, []⟩).vocab p.1 =
        some el ∧
      vlookup (trainLoop target k ⟨segment corpus, byteVocab, []⟩).vocab p.2 =
        some er ∧
      vlookup (trainLoop target k ⟨segment corpus, byteVocab, []⟩).vocab idx =
        some (el ++ er) := by
  have hg := goodState_loop (segment corpus) target k _ (goodState_init corpus hc)
  obtain ⟨K, L, B, M, C, F⟩ := hg
  have hh := M (p, idx) hm
  exact ⟨hh.1, hh.2.1⟩

/-- Witness for C5 after one training step on the corpus "abab". -/
theorem C5_vocab_invariant_witness :
    256 ≤ 256 ∧ ∃ el er,
      vlookup (trainLoop 257 1 ⟨segment [97, 98, 97, 98], byteVocab, []⟩).vocab 97 =
        some el ∧
      vlookup (trainLoop 257 1 ⟨segment [97, 98, 97, 98], byteVocab, []⟩).vocab 98 =
        some er ∧
      vlookup (trainLoop 257 1 ⟨segment [97, 98, 97, 98], byteVocab, []⟩).vocab 256 =
        some (el ++ er) :=
  C5_vocab_invariant [97, 98, 97, 98] 257 1 (by decide) (97, 98) 256 (by decide)

/-- Claim C6: every merge step grows the vocabulary by exactly 1 and never
increases the total symbol count across chunks; rewriting never lengthens a
sequence and strictly shortens it when the pair occurs. -/
theorem C6_monotone :
    (∀ (text : List Nat) (p : Nat × Nat) (idx : Nat),
      (replace_pairs text p idx).length ≤ text.length) ∧
    (∀ (text : List Nat) (p : Nat × Nat) (idx : Nat), pairInChunk p text = true →
      (replace_pairs text p idx).length < text.length) ∧
    (∀ (target : Nat) (s s' : BPEState), trainStep target s = some s' →
      s'.vocab.length = s.vocab.length + 1 ∧
      totalSyms s'.chunks ≤ totalSyms s.chunks) := by
  refine ⟨rp_length_le, rp_length_lt, ?_⟩
  intro target s s' h
  obtain ⟨kv, hsel, hgt1, htg, hs'⟩ := trainStep_some_spec target s s' h
  subst hs'
  constructor
  · simp
  · exact totalSyms_map_le s.chunks kv.1 (256 + s.merges.length)

/-- Witness for C6 on a concrete rewrite and a concrete training step. -/
theorem C6_monotone_witness :
    (replace_pairs [5, 7, 5, 7] (5, 7) 300).length < ([5, 7, 5, 7] : List Nat).length ∧
    ((BPEState.mk [[256, 256, 99, 256, 99, 100]] (ababVocab ++ [(256, [97, 98])])
        [((97, 98), 256)]).vocab.length =
      (BPEState.mk [ababChunk] ababVocab []).vocab.length + 1 ∧
      totalSyms (BPEState.mk [[256, 256, 99, 256, 99, 100]]
        (ababVocab ++ [(256, [97, 98])]) [((97, 98), 256)]).chunks ≤
      totalSyms (BPEState.mk [ababChunk] ababVocab []).chunks) :=
  ⟨C6_monotone.2.1 [5, 7, 5, 7] (5, 7) 300 (by decide),
   C6_monotone.2.2 6 (BPEState.mk [ababChunk] ababVocab [])
     (BPEState.mk [[256, 256, 99, 256, 99, 100]] (ababVocab ++ [(256, [97, 98])])
       [((97, 98), 256)]) (by decide)⟩

/-- Claim C7: the Segmenter partitions every input: the chunks concatenated in
order reconstruct the input exactly (total coverage, no overlap, no gap), and
every produced chunk belongs to exactly one of the five categories
(contraction suffix, optionally space-prefixed letter run, numeral run,
other-character run, whitespace run). -/
theorem C7_partition (l : List Nat) :
    concatAll (segment l) = l ∧
    (segment l).all (fun ch => catCount ch = 1) = true :=
  ⟨segment_flatten l,
   List.all_eq_true.mpr (fun ch hch => by simpa using segment_valid l ch hch)⟩

/-- Claim C8: no learned merge crosses a category boundary: for byte-level training
on any byte input, every recorded merge symbol expands to a contiguous part of a
single chunk of the segmented input; in particular training on
"my dog. your dog." produces no token mixing the period with letters. -/
theorem C8_no_cross_boundary :
    (∀ corpus target, (∀ b ∈ corpus, b < 256) →
      ∀ r ∈ (train corpus target).merges,
        ∃ o ∈ segment corpus, ∃ e,
          vlookup (train corpus target).vocab r.2 = some e ∧ e <:+: o) ∧
    ((train myDogText 260).vocab.all
      (fun kv => decide (kv.1 < 256) ||
        !(kv.2.contains 46 &&
          kv.2.any (fun b => decide (charCat b = Cat.letter))))) = true := by
  constructor
  · intro corpus target hb r hr
    obtain ⟨K, L, B, M, C, F⟩ := goodState_train corpus target hb
    exact (M r hr).2.2
  · decide

/-- Witness for C8: the first merge learned on "my dog. your dog." expands to
a contiguous part of one original chunk. -/
theorem C8_no_cross_boundary_witness :
    ∃ o ∈ segment myDogText, ∃ e,
      vlookup (train myDogText 260).vocab 256 = some e ∧ e <:+: o :=
  C8_no_cross_boundary.1 myDogText 260 (by decide) ((32, 100), 256) (by decide)

/-- Claim C9: encoding selects the rule of lowest merge rank among pairs present,
not the most frequent pair: with merges learned in order (a,b) to 256 then
(b,c) to 257, encoding the fresh chunk a b c applies (a,b) first and yields
256 c. -/
theorem C9_rank_based_encode (a b c : Nat) (ha : a < 256) (hb : b < 256) :
    findRule [((a, b), 256), ((b, c), 257)] [a, b, c] = some ((a, b), 256) ∧
    encodeChunkF [((a, b), 256), ((b, c), 257)] [a, b, c] = [256, c] := by
  have h1 : ¬ ((256 : Nat) = a) := by omega
  have h2 : ¬ ((256 : Nat) = b) := by omega
  have hf1 : findRule [((a, b), 256), ((b, c), 257)] [a, b, c] =
      some ((a, b), 256) := by
    simp [findRule, List.find?, pairInChunk]
  have hrp : replace_pairs [a, b, c] (a, b) 256 = [256, c] := by
    simp [replace_pairs]
  have hf2 : findRule [((a, b), 256), ((b, c), 257)] [256, c] = none := by
    simp [findRule, List.find?, pairInChunk, h1, h2]
  refine ⟨hf1, ?_⟩
  have e1 : encodeChunkF [((a, b), 256), ((b, c), 257)] [a, b, c] =
      encodeChunk [((a, b), 256), ((b, c), 257)] 3 [a, b, c] := rfl
  rw [e1, encodeChunk_of_pos _ 3 _ _ (by omega) hf1]
  have e2 : replace_pairs [a, b, c] ((a, b), 256).1 ((a, b), 256).2 = [256, c] := hrp
  rw [e2]
  exact encodeChunk_stop _ _ _ hf2

/-- Witness for C9 at concrete byte symbols. -/
theorem C9_rank_based_encode_witness :
    findRule [((97, 98), 256), ((98, 99), 257)] [97, 98, 99] =
      some ((97, 98), 256) ∧
    encodeChunkF [((97, 98), 256), ((98, 99), 257)] [97, 98, 99] = [256, 99] :=
  C9_rank_based_encode 97 98 99 (by decide) (by decide)

/-- Claim C10: replace_pairs is total: the empty sequence maps to the empty
sequence, a symbol equal to the left of the pair standing at the last
position is copied through unchanged (the bounds guard fires before the
lookahead), and a sequence with no occurrence of the pair is returned
unchanged. -/
theorem C10_bounds_guard (p : Nat × Nat) (idx : Nat) :
    replace_pairs [] p idx = [] ∧
    replace_pairs [p.1] p idx = [p.1] ∧
    (∀ xs, p.2 ∉ xs → p.1 ≠ p.2 →
      replace_pairs (xs ++ [p.1]) p idx = xs ++ [p.1]) := by
  refine ⟨rfl, rfl, ?_⟩
  intro xs hmem hne
  apply rp_id_of_not_mem
  simp only [List.mem_append, List.mem_singleton]
  push_neg
  exact ⟨hmem, Ne.symm hne⟩

/-- Witness for C10 with the left symbol of the pair at the last position. -/
theorem C10_bounds_guard_witness :
    replace_pairs ([5, 7] ++ [1]) (1, 2) 300 = [5, 7] ++ [1] :=
  (C10_bounds_guard (1, 2) 300).2.2 [5, 7] (by decide) (by decide)

end BPE
